import Mathlib

/-
Verification of the fabric8-analytics LSP server core (src/server.ts).

The embedding below translates the data model and operations of server.ts
into executable Lean definitions:

  * EventStream, AnalysisFileHandler, AnalysisFiles.on / AnalysisFiles.run
    (lines 28-96) model the event-routing table; a RegExp matcher is
    modelled as a Bool-valued predicate on the bare file name.
  * mapSet / mapGet model the JS Map/property-table operations used by the
    code (set-or-insert keyed by equality, lookup).
  * Aggregator.init, is_ready, aggregateStep, runAgg (lines 135-158) model
    the Aggregator class; the Bool returned by aggregateStep records
    whether the completion callback was invoked during that call, and
    runAgg counts callback invocations over a sequence of aggregate calls.
  * stack_collector_step (lines 200-216) models one round of the
    stack-analysis poll loop; StackState / stackStep / runStack
    (lines 218-249) model get_stack_metadata and its submission guard.
  * get_metadata_response (lines 251-267) models the status check of
    get_metadata; DepAction / metadata_callback_actions (lines 282-290)
    model the per-dependency callback in the Diagnostics handler, and
    diagnostics_run (lines 276-291) the whole fan-out over a manifest.
-/

/-- Event kinds of the routing table (server.ts enum EventStream). -/
inductive EventStream where
  | Invalid
  | Diagnostics
  | CodeLens
deriving DecidableEq, BEq, Repr

/-- One registration of the routing table (server.ts class AnalysisFileHandler):
a filename matcher (the RegExp built from the registration pattern, modelled as
a Bool-valued test on the bare file name), an event stream, and the handler
callback taking (uri, name, contents). The result type of the callback is the
parameter rho. -/
structure AnalysisFileHandler (rho : Type) where
  matcher : String → Bool
  stream : EventStream
  callback : String → String → String → rho

/-- The routing table state (server.ts class AnalysisFiles): the ordered
handler list and the per-uri document content table. -/
structure AnalysisFiles (rho : Type) where
  handlers : List (AnalysisFileHandler rho)
  file_data : List (String × String)

/-- Registration (AnalysisFiles.on): pushes a new handler at the end of the
handler list. -/
def AnalysisFiles.on {rho : Type} (fs : AnalysisFiles rho) (stream : EventStream)
    (matcher : String → Bool) (cb : String → String → String → rho) :
    AnalysisFiles rho :=
  { fs with handlers := fs.handlers ++ [⟨matcher, stream, cb⟩] }

/-- Dispatch scan (body of AnalysisFiles.run, lines 90-94): walk the handler
list in order; on the first handler whose stream equals the dispatched stream
and whose matcher accepts the file name, return that handler's callback result;
if none matches, return none (the implicit undefined of the source). -/
def runHandlers {rho : Type} (handlers : List (AnalysisFileHandler rho))
    (stream : EventStream) (uri file contents : String) : Option rho :=
  match handlers with
  | [] => none
  | h :: rest =>
    if h.stream == stream && h.matcher file then some (h.callback uri file contents)
    else runHandlers rest stream uri file contents

/-- Dispatch entry point (AnalysisFiles.run, lines 89-95). -/
def AnalysisFiles.run {rho : Type} (fs : AnalysisFiles rho) (stream : EventStream)
    (uri file contents : String) : Option rho :=
  runHandlers fs.handlers stream uri file contents

/-- JS Map.set / property assignment on a key-value table: update the first entry
with the given key, keeping its position and original key object, or append a
new entry at the end (JS Map insertion-order semantics). -/
def mapSet {kappa beta : Type} [DecidableEq kappa] :
    List (kappa × beta) → kappa → beta → List (kappa × beta)
  | [], k, v => [(k, v)]
  | e :: rest, k, v =>
    if e.1 = k then (e.1, v) :: rest else e :: mapSet rest k v

/-- JS Map lookup / property read on a key-value table. -/
def mapGet {kappa beta : Type} [DecidableEq kappa] :
    List (kappa × beta) → kappa → Option beta
  | [], _ => none
  | e :: rest, k => if e.1 = k then some e.2 else mapGet rest k

/-- Aggregator constructor body (lines 139-144): mapping.set(item, false) for
each item of the construction list. No readiness check and no callback
invocation happens here. -/
def Aggregator.init {kappa : Type} [DecidableEq kappa] (items : List kappa) :
    List (kappa × Bool) :=
  items.foldl (fun m i => mapSet m i false) []

/-- Readiness check (Aggregator.is_ready, lines 145-151): fold the conjunction
of all entry values, starting from true. -/
def is_ready {kappa : Type} (m : List (kappa × Bool)) : Bool :=
  m.foldl (fun val e => val && e.2) true

/-- Completion marking (Aggregator.aggregate, lines 152-157): set the key to
true, then check is_ready; the returned Bool records whether the completion
callback was invoked by this call. -/
def aggregateStep {kappa : Type} [DecidableEq kappa] (m : List (kappa × Bool))
    (dep : kappa) : List (kappa × Bool) × Bool :=
  (mapSet m dep true, is_ready (mapSet m dep true))

/-- Run a sequence of aggregate calls against an aggregator state, returning
the final state and the total number of completion-callback invocations. -/
def runAgg {kappa : Type} [DecidableEq kappa] (m : List (kappa × Bool)) :
    List kappa → List (kappa × Bool) × Nat
  | [] => (m, 0)
  | d :: ds =>
    ((runAgg (aggregateStep m d).1 ds).1,
     (if (aggregateStep m d).2 then 1 else 0) + (runAgg (aggregateStep m d).1 ds).2)

/-- Parsed poll response of the stack-analysis loop: the status field of the
parsed body (data.status) and the HTTP status code (httpResponse.statusCode). -/
structure PollResponse where
  status : String
  statusCode : Nat
deriving DecidableEq, Repr

/-- One round of stack_collector (lines 203-215): on body status success
store the parsed body keyed by the document uri and schedule nothing more;
otherwise, on HTTP status 202 schedule exactly one further poll with a
10000 ms delay (the setTimeout call); otherwise do nothing (terminal, no
store, no further poll). The returned Option Nat is the delay of the
scheduled next poll, if any. -/
def stack_collector_step (responses : List (String × PollResponse))
    (file_uri : String) (r : PollResponse) :
    List (String × PollResponse) × Option Nat :=
  if r.status = "success" then (mapSet responses file_uri r, none)
  else if r.statusCode = 202 then (responses, some 10000)
  else (responses, none)

/-- State of the stack-analysis submission guard: the
stack_analysis_requests table (uri to recorded request id, written via
property assignment and read via the in operator, lines 220 and 241), plus an
instrumentation counter of how many remote submission calls (request.post)
have been issued. -/
structure StackState where
  requests : List (String × String)
  submissions : Nat
deriving DecidableEq, Repr

/-- Events of the stack-analysis submission flow: an analysis request for a
uri (a call of get_stack_metadata, line 218), or the arrival of the POST
response (the request.post callback, lines 237-248) carrying the err flag,
whether the parsed body had no error field and status success, and the
returned request id. -/
inductive StackEvent where
  | request (uri : String) (manifest : String)
  | postResponse (uri : String) (err : Bool) (success : Bool) (id : String)
deriving DecidableEq, Repr

/-- One step of the stack-analysis submission flow. A request event returns
early when the uri is already present in the requests table (lines 220-222),
otherwise it issues a remote submission (request.post, line 237). A
postResponse event records the request id under the uri when the submission
succeeded (line 241) and does nothing otherwise. -/
def stackStep (s : StackState) : StackEvent → StackState
  | StackEvent.request uri _manifest =>
    if (mapGet s.requests uri).isSome then s
    else { s with submissions := s.submissions + 1 }
  | StackEvent.postResponse uri err success id =>
    if !err && success then { s with requests := mapSet s.requests uri id }
    else s

/-- Run a sequence of stack-analysis events. -/
def runStack (s : StackState) (es : List StackEvent) : StackState :=
  es.foldl stackStep s

/-- Status check of get_metadata (lines 258-264): on HTTP status 200 or 202
the callback receives the parsed body, otherwise it receives null (none). -/
def get_metadata_response {mu : Type} (statusCode : Nat) (body : mu) : Option mu :=
  if statusCode == 200 || statusCode == 202 then some body else none

/-- Primitive actions performed by the per-dependency callback of the
Diagnostics handler: running the Diagnostics Pipeline for a dependency on a
metadata response (which appends that dependency's diagnostic entries to the
shared buffer), or reporting the dependency complete to the Aggregator. -/
inductive DepAction (kappa mu : Type) where
  | runPipeline (dep : kappa) (response : mu)
  | aggregate (dep : kappa)
deriving DecidableEq, Repr

/-- Trace of the get_metadata callback in the Diagnostics handler
(lines 283-289): if the response is non-null, run the pipeline on it; in
every case, afterwards report the dependency complete to the aggregator. -/
def metadata_callback_actions {kappa mu : Type} (dep : kappa)
    (response : Option mu) : List (DepAction kappa mu) :=
  (match response with
   | some r => [DepAction.runPipeline dep r]
   | none => []) ++ [DepAction.aggregate dep]

/-- Per-run state of one Diagnostics handler run (lines 276-291): the shared
diagnostics buffer, the aggregator mapping, and the number of times the
completion callback (connection.sendDiagnostics) has been invoked. -/
structure RunState (kappa delta : Type) where
  diagnostics : List delta
  agg : List (kappa × Bool)
  fires : Nat
deriving Repr

/-- Interpret one DepAction on the run state. The pipeline parameter
abstracts DiagnosticsPipeline(DiagnosticsEngines, dependency, config,
diagnostics).run(response), whose effect is to append that dependency's
diagnostic entries to the shared buffer (the engines live in consumers.ts,
outside the embedded file). -/
def applyDepAction {kappa mu delta : Type} [DecidableEq kappa]
    (pipeline : kappa → mu → List delta) (st : RunState kappa delta) :
    DepAction kappa mu → RunState kappa delta
  | DepAction.runPipeline dep r =>
    { st with diagnostics := st.diagnostics ++ pipeline dep r }
  | DepAction.aggregate dep =>
    { st with agg := (aggregateStep st.agg dep).1,
              fires := st.fires + (if (aggregateStep st.agg dep).2 then 1 else 0) }

/-- Interpret a list of DepActions in order. -/
def runDepActions {kappa mu delta : Type} [DecidableEq kappa]
    (pipeline : kappa → mu → List delta) (st : RunState kappa delta)
    (as : List (DepAction kappa mu)) : RunState kappa delta :=
  as.foldl (applyDepAction pipeline) st

/-- One whole Diagnostics handler run (lines 276-291): start from the empty
diagnostics buffer and the Aggregator constructed over the dependency list,
then run the get_metadata callback for each dependency on its fetched
response (one callback per dependency, here in list order). -/
def diagnostics_run {kappa mu delta : Type} [DecidableEq kappa]
    (pipeline : kappa → mu → List delta) (deps : List kappa)
    (responses : kappa → Option mu) : RunState kappa delta :=
  deps.foldl
    (fun st d => runDepActions pipeline st (metadata_callback_actions d (responses d)))
    ⟨[], Aggregator.init deps, 0⟩

/-- The handler table after startup registration (line 269): the single
registration is for the Diagnostics stream with the pattern matching exactly
the bare file name package.json; cb abstracts the Diagnostics handler body. -/
def server_files {rho : Type} (cb : String → String → String → rho) :
    AnalysisFiles rho :=
  AnalysisFiles.on ⟨[], []⟩ EventStream.Diagnostics
    (fun file => file == "package.json") cb

/-- CodeLens dispatch (AnalysisLSPServer.handle_code_lens_event, lines
119-125): dispatch a CodeLens event through the routing table. file_name stands for
path.basename(url.parse(uri).pathname) and contents for the cached
file_data entry of the uri (both computed outside the dispatch). -/
def handle_code_lens_event {rho : Type} (fs : AnalysisFiles rho)
    (uri file_name contents : String) : Option rho :=
  fs.run EventStream.CodeLens uri file_name contents


/-- Updating a key and then reading it back yields the written value. -/
theorem mapGet_mapSet {kappa beta : Type} [DecidableEq kappa]
    (m : List (kappa × beta)) (k : kappa) (v : beta) :
    mapGet (mapSet m k v) k = some v := by
  induction m with
  | nil => simp [mapSet, mapGet]
  | cons e rest ih =>
    by_cases h : e.1 = k
    · simp [mapSet, mapGet, h]
    · simp [mapSet, mapGet, h, ih]

/-- Setting a key to true preserves every entry that already holds true. -/
theorem mem_true_mapSet {kappa : Type} [DecidableEq kappa]
    (m : List (kappa × Bool)) (k k2 : kappa)
    (h : (k, true) ∈ m) : (k, true) ∈ mapSet m k2 true := by
  induction m with
  | nil => exact absurd h (List.not_mem_nil _)
  | cons e rest ih =>
    obtain ⟨e1, e2⟩ := e
    rw [List.mem_cons] at h
    by_cases he : e1 = k2
    · rw [show mapSet ((e1, e2) :: rest) k2 true = (e1, true) :: rest from by
        simp [mapSet, he]]
      rcases h with h | h
      · rw [List.mem_cons]
        left
        rw [Prod.mk.injEq] at h ⊢
        exact ⟨h.1, rfl⟩
      · exact List.mem_cons_of_mem _ h
    · rw [show mapSet ((e1, e2) :: rest) k2 true = (e1, e2) :: mapSet rest k2 true from by
        simp [mapSet, he]]
      rcases h with h | h
      · rw [h]; exact List.mem_cons_self _ _
      · exact List.mem_cons_of_mem _ (ih h)

/-- Setting a key to true preserves the all-entries-true property. -/
theorem all_snd_mapSet {kappa : Type} [DecidableEq kappa]
    (m : List (kappa × Bool)) (k : kappa)
    (h : ∀ e ∈ m, e.2 = true) : ∀ e ∈ mapSet m k true, e.2 = true := by
  induction m with
  | nil =>
    intro e he
    rw [show mapSet ([] : List (kappa × Bool)) k true = [(k, true)] from rfl,
      List.mem_singleton] at he
    rw [he]
  | cons f rest ih =>
    intro e he
    by_cases hf : f.1 = k
    · rw [show mapSet (f :: rest) k true = (f.1, true) :: rest from by
        simp [mapSet, hf], List.mem_cons] at he
      rcases he with he | he
      · rw [he]
      · exact h e (List.mem_cons_of_mem _ he)
    · rw [show mapSet (f :: rest) k true = f :: mapSet rest k true from by
        simp [mapSet, hf], List.mem_cons] at he
      rcases he with he | he
      · rw [he]; exact h f (List.mem_cons_self _ _)
      · exact ih (fun x hx => h x (List.mem_cons_of_mem _ hx)) e he

/-- The readiness fold equals the all-entries-true test. -/
theorem is_ready_eq_all {kappa : Type} (m : List (kappa × Bool)) :
    is_ready m = m.all fun e => e.2 := by
  have aux : ∀ (l : List (kappa × Bool)) (b : Bool),
      l.foldl (fun val e => val && e.2) b = (b && l.all fun e => e.2) := by
    intro l
    induction l with
    | nil => intro b; simp
    | cons e rest ih =>
      intro b
      rw [List.foldl_cons, ih, List.all_cons, Bool.and_assoc]
  rw [is_ready, aux, Bool.true_and]

/-- Setting a key absent from a table appends the new entry at the end. -/
theorem mapSet_notMem {kappa beta : Type} [DecidableEq kappa]
    (m : List (kappa × beta)) (k : kappa) (v : beta)
    (h : ∀ e ∈ m, e.1 ≠ k) : mapSet m k v = m ++ [(k, v)] := by
  induction m with
  | nil => rfl
  | cons e rest ih =>
    rw [show mapSet (e :: rest) k v = e :: mapSet rest k v from by
      simp [mapSet, h e (List.mem_cons_self _ _)]]
    rw [ih (fun x hx => h x (List.mem_cons_of_mem _ hx)), List.cons_append]

/-- The constructed aggregator state over a duplicate-free list is the list of
keys each paired with false. -/
theorem init_eq_map {kappa : Type} [DecidableEq kappa] (D : List kappa)
    (hD : D.Nodup) : Aggregator.init D = D.map fun j => (j, false) := by
  have aux : ∀ (l : List kappa) (m : List (kappa × Bool)), l.Nodup →
      (∀ k ∈ l, ∀ e ∈ m, e.1 ≠ k) →
      l.foldl (fun acc i => mapSet acc i false) m = m ++ l.map fun j => (j, false) := by
    intro l
    induction l with
    | nil => intro m _ _; simp
    | cons d rest ih =>
      intro m hnd hfresh
      rw [List.foldl_cons,
        mapSet_notMem m d false (hfresh d (List.mem_cons_self _ _)),
        ih (m ++ [(d, false)]) (List.nodup_cons.mp hnd).2 ?fresh]
      · simp
      case fresh =>
        intro k hk e he
        rw [List.mem_append, List.mem_singleton] at he
        rcases he with he | he
        · exact hfresh k (List.mem_cons_of_mem _ hk) e he
        · rw [he]
          intro hcon
          have hd : d = k := hcon
          exact (List.nodup_cons.mp hnd).1 (by rw [hd]; exact hk)
  rw [Aggregator.init, aux D [] hD (by intro k _ e he; exact absurd he (List.not_mem_nil _)), List.nil_append]

/-- Marking a key of a duplicate-free aggregator state flips exactly that
key's flag to true. -/
theorem mapSet_map_mem {kappa : Type} [DecidableEq kappa] (D : List kappa)
    (f : kappa → Bool) (k : kappa) (hD : D.Nodup) (hk : k ∈ D) :
    mapSet (D.map fun j => (j, f j)) k true
      = D.map fun j => (j, if j = k then true else f j) := by
  induction D with
  | nil => exact absurd hk (List.not_mem_nil _)
  | cons d rest ih =>
    rw [List.map_cons, List.map_cons]
    by_cases hd : d = k
    · subst hd
      rw [show mapSet ((d, f d) :: rest.map fun j => (j, f j)) d true
            = (d, true) :: rest.map (fun j => (j, f j)) from by simp [mapSet]]
      rw [if_pos rfl]
      have hrest : ∀ j ∈ rest, (fun j => (j, f j)) j
          = (fun j => (j, if j = d then true else f j)) j := by
        intro j hj
        have : j ≠ d := by
          intro hcon
          exact (List.nodup_cons.mp hD).1 (hcon ▸ hj)
        simp [this]
      rw [List.map_congr_left hrest]
    · rw [show mapSet ((d, f d) :: rest.map fun j => (j, f j)) k true
            = (d, f d) :: mapSet (rest.map fun j => (j, f j)) k true from by
        simp [mapSet, hd]]
      rw [if_neg hd,
        ih (List.nodup_cons.mp hD).2
          ((List.mem_cons.mp hk).resolve_left (fun h => hd h.symm))]

/-- After a sequence of aggregate calls on keys of a duplicate-free state,
each key's flag is its old flag or-ed with membership in the call sequence. -/
theorem runAgg_state {kappa : Type} [DecidableEq kappa] (D : List kappa)
    (hD : D.Nodup) :
    ∀ (s : List kappa) (f : kappa → Bool), (∀ k ∈ s, k ∈ D) →
      (runAgg (D.map fun j => (j, f j)) s).1
        = D.map fun j => (j, f j || decide (j ∈ s)) := by
  intro s
  induction s with
  | nil =>
    intro f _
    show D.map (fun j => (j, f j)) = _
    apply List.map_congr_left
    intro j _
    simp
  | cons k ks ih =>
    intro f hs
    have hk : k ∈ D := hs k (List.mem_cons_self _ _)
    show (runAgg (mapSet (D.map fun j => (j, f j)) k true) ks).1 = _
    rw [mapSet_map_mem D f k hD hk,
      ih (fun j => if j = k then true else f j)
        (fun x hx => hs x (List.mem_cons_of_mem _ hx))]
    apply List.map_congr_left
    intro j _
    by_cases hj : j = k <;> simp [hj, List.mem_cons]

/-- As long as some key of the construction set has not yet been marked, no
aggregate call in the sequence invokes the completion callback. -/
theorem runAgg_count_zero {kappa : Type} [DecidableEq kappa] (D : List kappa)
    (hD : D.Nodup) (d0 : kappa) (hd0 : d0 ∈ D) :
    ∀ (s : List kappa) (f : kappa → Bool), (∀ k ∈ s, k ∈ D) → d0 ∉ s →
      f d0 = false → (runAgg (D.map fun j => (j, f j)) s).2 = 0 := by
  intro s
  induction s with
  | nil => intro f _ _ _; rfl
  | cons k ks ih =>
    intro f hs hd0s hf
    have hk : k ∈ D := hs k (List.mem_cons_self _ _)
    have hne : d0 ≠ k := by
      intro hcon
      exact hd0s (hcon ▸ List.mem_cons_self k ks)
    show (if is_ready (mapSet (D.map fun j => (j, f j)) k true) then 1 else 0)
          + (runAgg (mapSet (D.map fun j => (j, f j)) k true) ks).2 = 0
    rw [mapSet_map_mem D f k hD hk]
    have hready :
        is_ready (D.map fun j => (j, if j = k then true else f j)) = false := by
      rw [is_ready_eq_all]
      apply Bool.eq_false_iff.mpr
      intro hall
      rw [List.all_eq_true] at hall
      have hmem : (d0, if d0 = k then true else f d0)
          ∈ D.map fun j => (j, if j = k then true else f j) :=
        List.mem_map_of_mem _ hd0
      have := hall _ hmem
      simp only [if_neg hne] at this
      rw [hf] at this
      exact Bool.false_ne_true this
    rw [hready]
    simp only [Bool.false_eq_true, if_false, Nat.zero_add]
    rw [ih (fun j => if j = k then true else f j)
      (fun x hx => hs x (List.mem_cons_of_mem _ hx))
      (fun hx => hd0s (List.mem_cons_of_mem _ hx))
      (by show (if d0 = k then true else f d0) = false
          rw [if_neg hne, hf])]

/-- Splitting an aggregate-call sequence splits the state threading and adds
the callback counts. -/
theorem runAgg_append {kappa : Type} [DecidableEq kappa] (s t : List kappa) :
    ∀ m : List (kappa × Bool),
      runAgg m (s ++ t)
        = ((runAgg (runAgg m s).1 t).1,
           (runAgg m s).2 + (runAgg (runAgg m s).1 t).2) := by
  induction s with
  | nil => intro m; simp [runAgg]
  | cons d ds ih =>
    intro m
    show ((runAgg (runAgg (aggregateStep m d).1 (ds ++ t)).1 []).1,
          (if (aggregateStep m d).2 then 1 else 0)
            + (runAgg (aggregateStep m d).1 (ds ++ t)).2) = _
    rw [ih (aggregateStep m d).1]
    show (_, (if (aggregateStep m d).2 then 1 else 0)
            + ((runAgg (aggregateStep m d).1 ds).2 + _)) = _
    rw [← Nat.add_assoc]
    rfl

/-- C1: evaluation of the Aggregator at the failing inputs of the claim that
the completion callback fires exactly once, and only after every key of the
construction list has been aggregated. Over the empty list with no aggregate
calls the callback fires 0 times (never), and over the list [0, 1] with the
call sequence 0, 1, 0 (every key aggregated at least once) it fires twice,
while the claim demands exactly one invocation in both runs. -/
theorem aggregator_not_exactly_once :
    (runAgg (Aggregator.init ([] : List Nat)) []).2 = 0 ∧
    (runAgg (Aggregator.init [(0 : Nat), 1]) [0, 1, 0]).2 = 2 := by
  exact ⟨rfl, by decide⟩

/-- C2: for an Aggregator over the empty dependency list, is_ready is
vacuously true, yet a whole Diagnostics handler run over zero dependencies
never invokes the completion callback (fires = 0): the constructor performs
no readiness check and aggregate is never called, so nothing is ever
published, while the claim demands an immediate publish of an empty
diagnostics list upon construction. -/
theorem zero_deps_no_publish :
    is_ready (Aggregator.init ([] : List Nat)) = true ∧
    (diagnostics_run (fun (_ : Nat) (_ : Nat) => ([] : List Nat)) []
      (fun _ => none)).fires = 0 :=
  ⟨rfl, rfl⟩

/-- C3: evaluation at the failing input of the idempotence claim: for an
Aggregator over the single key 0, calling aggregate(0) twice invokes the
completion callback twice — the second call on the already-completed key
re-invokes the callback, while the claim says it must not. -/
theorem completed_aggregate_refires :
    (runAgg (Aggregator.init [(0 : Nat)]) [0, 0]).2 = 2 := by decide

/-- C4 counterexample: two analysis requests for the same uri arriving while
the first submission has received no response yet (the Submitted window, so
nothing is recorded in the requests table) issue two remote submission
calls, not the exactly one that the claim demands. -/
theorem stack_double_submit :
    (runStack ⟨[], 0⟩ [StackEvent.request "u" "m", StackEvent.request "u" "m"]).submissions = 2 ∧
    ¬ (runStack ⟨[], 0⟩ [StackEvent.request "u" "m", StackEvent.request "u" "m"]).submissions = 1 := by
  refine ⟨rfl, by decide⟩

/-- C4 as amended: once the successful submission response has recorded a
request id for the uri (the Polling state), any further analysis requests for
that uri are suppressed entirely: the state, and in particular the number of
remote submission calls, does not change. -/
theorem stack_guard_after_polling (s : StackState) (uri : String)
    (es : List StackEvent)
    (hrec : (mapGet s.requests uri).isSome = true)
    (hes : ∀ e ∈ es, ∃ m, e = StackEvent.request uri m) :
    runStack s es = s := by
  induction es with
  | nil => rfl
  | cons e es2 ih =>
    obtain ⟨m, rfl⟩ := hes e (List.mem_cons_self e es2)
    show runStack (stackStep s (StackEvent.request uri m)) es2 = s
    rw [show stackStep s (StackEvent.request uri m) = s from by simp [stackStep, hrec]]
    exact ih (fun x hx => hes x (List.mem_cons_of_mem _ hx))

/-- C4 witness: concrete instance of the amended guard: with the id 1
recorded for uri u, two further requests for u leave the state (and its
submission count 1) unchanged. -/
theorem stack_guard_after_polling_witness :
    (mapGet [(("u" : String), ("1" : String))] "u").isSome = true ∧
    runStack ⟨[("u", "1")], 1⟩
      [StackEvent.request "u" "m", StackEvent.request "u" "m"] = ⟨[("u", "1")], 1⟩ := by
  refine ⟨by decide, ?_⟩
  exact stack_guard_after_polling ⟨[("u", "1")], 1⟩ "u"
    [StackEvent.request "u" "m", StackEvent.request "u" "m"] (by decide)
    (by intro e he; rw [List.mem_cons, List.mem_singleton] at he
        rcases he with rfl | rfl <;> exact ⟨"m", rfl⟩)

/-- C5 counterexample: a metadata fetch with non-success HTTP status 500
delivers null to the callback, and the callback then performs no pipeline
run at all: its action trace is just the aggregate action, and even a
pipeline that emits a diagnostic on every invocation appends nothing to the
buffer — refuting the claim that the Diagnostics Pipeline is still run with
a null/absent payload. -/
theorem fetch_failure_pipeline_skipped :
    get_metadata_response 500 (0 : Nat) = none ∧
    (metadata_callback_actions (0 : Nat) (get_metadata_response 500 (0 : Nat))
        : List (DepAction Nat Nat)) = [DepAction.aggregate 0] ∧
    (runDepActions (fun _ _ => [(5 : Nat)]) ⟨[], Aggregator.init [0], 0⟩
      (metadata_callback_actions (0 : Nat) (get_metadata_response 500 (0 : Nat)))).diagnostics
      = [] :=
  ⟨rfl, rfl, rfl⟩

/-- C5 as amended: for every dependency whose metadata fetch returns a
non-success status (neither 200 nor 202), the callback receives null, the
Diagnostics Pipeline is not run for that dependency and the shared buffer is
unchanged, but the dependency is still reported complete to the Aggregator
(its key is set to true), so the run is not stalled. -/
theorem fetch_failure_no_stall {kappa mu delta : Type} [DecidableEq kappa]
    (pipeline : kappa → mu → List delta) (st : RunState kappa delta)
    (d : kappa) (code : Nat) (body : mu)
    (h1 : code ≠ 200) (h2 : code ≠ 202) :
    get_metadata_response code body = none ∧
    (runDepActions pipeline st
      (metadata_callback_actions d (get_metadata_response code body))).diagnostics
      = st.diagnostics ∧
    (runDepActions pipeline st
      (metadata_callback_actions d (get_metadata_response code body))).agg
      = mapSet st.agg d true := by
  have hresp : get_metadata_response code body = none := by
    simp [get_metadata_response, h1, h2]
  refine ⟨hresp, ?_, ?_⟩ <;> rw [hresp] <;> rfl

/-- C5 witness: concrete instance of the amended claim at status 500. -/
theorem fetch_failure_no_stall_witness :
    get_metadata_response 500 (7 : Nat) = none ∧
    (runDepActions (fun _ _ => [(9 : Nat)]) ⟨[], [((0 : Nat), false)], 0⟩
      (metadata_callback_actions (0 : Nat) (get_metadata_response 500 (7 : Nat)))).diagnostics
      = [] ∧
    (runDepActions (fun _ _ => [(9 : Nat)]) ⟨[], [((0 : Nat), false)], 0⟩
      (metadata_callback_actions (0 : Nat) (get_metadata_response 500 (7 : Nat)))).agg
      = mapSet [((0 : Nat), false)] 0 true :=
  fetch_failure_no_stall (fun _ _ => [(9 : Nat)]) ⟨[], [((0 : Nat), false)], 0⟩
    0 500 7 (by decide) (by decide)

/-- C6: first-match dispatch. For every handler list split as
before ++ h :: after where every registration in before fails the stream or
matcher test and h passes both, dispatch returns exactly h's callback result;
and when every registration fails the test, dispatch invokes no handler and
returns none. Registration order decides the winner because the scan walks
the list front to back. -/
theorem run_dispatch {rho : Type} (stream : EventStream) (uri file contents : String) :
    (∀ (before : List (AnalysisFileHandler rho)) (h : AnalysisFileHandler rho)
        (after : List (AnalysisFileHandler rho)),
      (∀ g ∈ before, (g.stream == stream && g.matcher file) = false) →
      (h.stream == stream && h.matcher file) = true →
      runHandlers (before ++ h :: after) stream uri file contents
        = some (h.callback uri file contents)) ∧
    (∀ hs : List (AnalysisFileHandler rho),
      (∀ g ∈ hs, (g.stream == stream && g.matcher file) = false) →
      runHandlers hs stream uri file contents = none) := by
  constructor
  · intro before h after hb hh
    induction before with
    | nil => simp [runHandlers, hh]
    | cons g gs ih =>
      have hg := hb g (List.mem_cons_self g gs)
      rw [List.cons_append]
      rw [show runHandlers (g :: (gs ++ h :: after)) stream uri file contents
            = runHandlers (gs ++ h :: after) stream uri file contents from by
        simp [runHandlers, hg]]
      exact ih (fun x hx => hb x (List.mem_cons_of_mem g hx))
  · intro hs hall
    induction hs with
    | nil => rfl
    | cons g gs ih =>
      have hg := hall g (List.mem_cons_self g gs)
      rw [show runHandlers (g :: gs) stream uri file contents
            = runHandlers gs stream uri file contents from by simp [runHandlers, hg]]
      exact ih (fun x hx => hall x (List.mem_cons_of_mem g hx))

/-- C6 witness: a non-matching registration followed by a matching one
dispatches to the second (first matching) handler, and a Diagnostics-only
registration dispatched on the CodeLens stream yields none. -/
theorem run_dispatch_witness :
    runHandlers
      [⟨fun _ => false, EventStream.Diagnostics, fun _ _ _ => (1 : Nat)⟩,
       ⟨fun _ => true, EventStream.Diagnostics, fun _ _ _ => (2 : Nat)⟩]
      EventStream.Diagnostics "u" "f" "c" = some 2 ∧
    runHandlers [⟨fun _ => true, EventStream.Diagnostics, fun _ _ _ => (3 : Nat)⟩]
      EventStream.CodeLens "u" "f" "c" = none := by
  constructor
  · exact (run_dispatch EventStream.Diagnostics "u" "f" "c").1
      [⟨fun _ => false, EventStream.Diagnostics, fun _ _ _ => (1 : Nat)⟩]
      ⟨fun _ => true, EventStream.Diagnostics, fun _ _ _ => (2 : Nat)⟩ []
      (by intro g hg; rw [List.mem_singleton] at hg; subst hg; rfl) rfl
  · exact (run_dispatch EventStream.CodeLens "u" "f" "c").2
      [⟨fun _ => true, EventStream.Diagnostics, fun _ _ _ => (3 : Nat)⟩]
      (by intro g hg; rw [List.mem_singleton] at hg; subst hg; rfl)

/-- C7: case analysis of one poll round. A response whose body status is
success stores the parsed body keyed by the document uri and schedules no
further poll (terminal); a non-success body with HTTP status 202 leaves the
stored results unchanged and schedules exactly one further poll after the
fixed 10000 ms delay; any other response is terminal, storing nothing and
scheduling nothing. -/
theorem stack_collector_cases (responses : List (String × PollResponse))
    (uri : String) (r : PollResponse) :
    (r.status = "success" →
      stack_collector_step responses uri r = (mapSet responses uri r, none) ∧
      mapGet (stack_collector_step responses uri r).1 uri = some r) ∧
    (r.status ≠ "success" → r.statusCode = 202 →
      stack_collector_step responses uri r = (responses, some 10000)) ∧
    (r.status ≠ "success" → r.statusCode ≠ 202 →
      stack_collector_step responses uri r = (responses, none)) := by
  refine ⟨?_, ?_, ?_⟩
  · intro h
    constructor
    · simp [stack_collector_step, h]
    · simp [stack_collector_step, h, mapGet_mapSet]
  · intro h h2; simp [stack_collector_step, h, h2]
  · intro h h2; simp [stack_collector_step, h, h2]

/-- C7 witness: the three poll outcomes at concrete responses: success with
status 200 stores and stops, an error body with status 202 reschedules one
poll at 10000 ms, and an error body with status 500 is terminal with no
store. -/
theorem stack_collector_cases_witness :
    stack_collector_step [] "u" ⟨"success", 200⟩ = ([("u", ⟨"success", 200⟩)], none) ∧
    stack_collector_step [] "u" ⟨"error", 202⟩ = ([], some 10000) ∧
    stack_collector_step [] "u" ⟨"error", 500⟩ = ([], none) :=
  ⟨((stack_collector_cases [] "u" ⟨"success", 200⟩).1 rfl).1,
   (stack_collector_cases [] "u" ⟨"error", 202⟩).2.1 (by decide) rfl,
   (stack_collector_cases [] "u" ⟨"error", 500⟩).2.2 (by decide) (by decide)⟩

/-- C8: in the per-dependency metadata callback, the action trace always
decomposes as a (possibly empty) block of pipeline runs for that dependency
followed, strictly last, by the aggregate (mark-complete) call for it: every
diagnostic emission for the dependency precedes its completion report, and
marking complete never precedes emission. -/
theorem pipeline_precedes_aggregate {kappa mu : Type} (dep : kappa)
    (response : Option mu) :
    ∃ pre : List (DepAction kappa mu),
      metadata_callback_actions dep response = pre ++ [DepAction.aggregate dep] ∧
      ∀ a ∈ pre, ∃ r, a = DepAction.runPipeline dep r := by
  cases response with
  | none => exact ⟨[], rfl, by intro a ha; exact absurd ha (List.not_mem_nil a)⟩
  | some r =>
    refine ⟨[DepAction.runPipeline dep r], rfl, ?_⟩
    intro a ha
    rw [List.mem_singleton] at ha
    exact ⟨r, ha⟩

/-- C9: aggregator readiness is monotone. Aggregate calls only ever set a
key's flag to true: every entry already holding true survives any sequence
of aggregate calls, and once is_ready is true it stays true after every
further aggregate call. -/
theorem aggregator_monotone {kappa : Type} [DecidableEq kappa]
    (m : List (kappa × Bool)) (s : List kappa) :
    (∀ k, (k, true) ∈ m → (k, true) ∈ (runAgg m s).1) ∧
    (is_ready m = true → is_ready (runAgg m s).1 = true) := by
  induction s generalizing m with
  | nil => exact ⟨fun k h => h, fun h => h⟩
  | cons d ds ih =>
    constructor
    · intro k h
      exact ((ih (mapSet m d true)).1 k (mem_true_mapSet m k d h))
    · intro h
      apply (ih (mapSet m d true)).2
      rw [is_ready_eq_all, List.all_eq_true]
      intro e he
      rw [is_ready_eq_all, List.all_eq_true] at h
      exact all_snd_mapSet m d h e he

/-- C9 witness: a ready single-entry state stays ready, and its true entry
survives, across a further aggregate call on a fresh key. -/
theorem aggregator_monotone_witness :
    ((0 : Nat), true) ∈ (runAgg [((0 : Nat), true)] [1]).1 ∧
    is_ready (runAgg [((0 : Nat), true)] [1]).1 = true :=
  ⟨(aggregator_monotone [((0 : Nat), true)] [1]).1 0 (by decide),
   (aggregator_monotone [((0 : Nat), true)] [1]).2 (by decide)⟩

/-- C10: handle_code_lens_event returns none (undefined) for every uri, file
name, contents and Diagnostics-handler body: the only registration installed
at startup is on the Diagnostics stream, so the CodeLens dispatch matches no
handler. -/
theorem code_lens_no_handler {rho : Type} (cb : String → String → String → rho)
    (uri file_name contents : String) :
    handle_code_lens_event (server_files cb) uri file_name contents = none := rfl

/-- Supporting development: in the intended operating regime — a nonempty,
duplicate-free construction list whose keys are each aggregated exactly once,
in any order — the completion callback fires exactly once, on the final
aggregate call, and fires zero times on every proper prefix of the call
sequence (that is, only after every key has been marked complete). -/
theorem aggregator_completes_once {kappa : Type} [DecidableEq kappa]
    (D s : List kappa) (hD : D.Nodup) (hne : D ≠ []) (hperm : s.Perm D) :
    (runAgg (Aggregator.init D) s).2 = 1 ∧
    ∀ p, p <+: s → p ≠ s → (runAgg (Aggregator.init D) p).2 = 0 := by
  have hsnodup : s.Nodup := hperm.nodup_iff.mpr hD
  have hmem : ∀ k, k ∈ s ↔ k ∈ D := fun k => hperm.mem_iff
  have hpre : ∀ p, p <+: s → p ≠ s → (runAgg (Aggregator.init D) p).2 = 0 := by
    intro p hp hpne
    obtain ⟨t, rfl⟩ := hp
    cases t with
    | nil => exact absurd (List.append_nil p).symm hpne
    | cons d t2 =>
      have hdD : d ∈ D :=
        (hmem d).mp (List.mem_append_right p (List.mem_cons_self _ _))
      have hdp : d ∉ p := by
        rw [List.nodup_append] at hsnodup
        intro hcon
        exact hsnodup.2.2 hcon (List.mem_cons_self _ _)
      rw [init_eq_map D hD]
      exact runAgg_count_zero D hD d hdD p (fun _ => false)
        (fun x hx => (hmem x).mp (List.mem_append_left _ hx)) hdp rfl
  refine ⟨?_, hpre⟩
  have hsne : s ≠ [] := by
    intro hcon
    subst hcon
    exact hne hperm.symm.eq_nil
  obtain ⟨s1, k, hs⟩ := s.eq_nil_or_concat.resolve_left hsne
  rw [List.concat_eq_append] at hs
  subst hs
  have hks1 : k ∉ s1 := by
    rw [List.nodup_append] at hsnodup
    intro hcon
    exact hsnodup.2.2 hcon (List.mem_cons_self _ _)
  have hkD : k ∈ D := (hmem k).mp (List.mem_append_right s1 (List.mem_cons_self _ _))
  have hs1D : ∀ x ∈ s1, x ∈ D := fun x hx => (hmem x).mp (List.mem_append_left _ hx)
  rw [init_eq_map D hD, runAgg_append s1 [k]]
  rw [runAgg_count_zero D hD k hkD s1 (fun _ => false) hs1D hks1 rfl, Nat.zero_add]
  rw [runAgg_state D hD s1 (fun _ => false) hs1D]
  show (if is_ready (mapSet (D.map fun j => (j, false || decide (j ∈ s1))) k true)
          then 1 else 0) + 0 = 1
  rw [mapSet_map_mem D (fun j => false || decide (j ∈ s1)) k hD hkD]
  have hready :
      is_ready (D.map fun j => (j, if j = k then true else false || decide (j ∈ s1)))
        = true := by
    rw [is_ready_eq_all, List.all_eq_true]
    intro e he
    rw [List.mem_map] at he
    obtain ⟨j, hj, rfl⟩ := he
    show (if j = k then true else false || decide (j ∈ s1)) = true
    by_cases hjk : j = k
    · rw [if_pos hjk]
    · rw [if_neg hjk, Bool.false_or]
      have : j ∈ s1 ++ [k] := (hmem j).mpr hj
      rw [List.mem_append, List.mem_singleton] at this
      rcases this with h | h
      · exact decide_eq_true h
      · exact absurd h hjk
  rw [hready]
  rfl

/-- Supporting development, concrete instance: over the list [0, 1] marked
in the order 1, 0 the callback fires exactly once. -/
theorem aggregator_completes_once_example :
    ([0, 1] : List Nat).Nodup ∧ ([0, 1] : List Nat) ≠ [] ∧
    ([1, 0] : List Nat).Perm [0, 1] ∧
    (runAgg (Aggregator.init [(0 : Nat), 1]) [1, 0]).2 = 1 :=
  ⟨by decide, by decide, by decide,
   (aggregator_completes_once [0, 1] [1, 0] (by decide) (by decide) (by decide)).1⟩
